import Mathlib

/-!
Verification of the dd-trace-js 0.5 agent encoder.

Shallow embedding of `packages/dd-trace/src/encode/0.5.js` (the format-B
dictionary encoder).  The class extends the 0.4 base encoder, whose file is
not part of the sources at hand; every primitive inherited from it
(`_encodeByte`, `_encodeInteger`, `_encodeId`, `_encodeArrayPrefix`,
`_encodeMap`, `_writeArrayPrefix`, `_writeTraces`, `_reset`, the `Chunk`
byte buffers) is modelled from the specification and marked as such in its
doc comment.  Methods of 0.5.js itself (`makePayload`, `_encode`,
`_encodeString`, `_cacheString`, `_writeStrings`) are translated directly
from the source.

Buffers are byte lists (`List Nat`, each entry < 256).  Machine failure
modes demanded by the spec's failure policy (values outside the supported
integer/identifier range, absent mandatory numbers) are `Option`-valued:
`none` is the fail-fast contract violation.
-/

/-- A MessagePack map value: the encoder's maps carry string values (meta)
or IEEE-754 numbers (metrics).  A number is represented by its 64-bit bit
pattern, which is all the byte-level encoding consumes. -/
inductive MapVal where
  | str (s : String)
  | num (bits : Nat)
deriving DecidableEq, Repr

/-- A span record as consumed by `_encode` in 0.5.js.  String fields and
the numeric fields `start`, `duration`, `error` may be absent
(JavaScript `undefined`), hence `Option`.  Identifiers are 64-bit unsigned
numbers (`trace_id`, `span_id`, `parent_id`). -/
structure Span where
  service : Option String
  name : Option String
  resource : Option String
  trace_id : Nat
  span_id : Nat
  parent_id : Nat
  start : Option Int
  duration : Option Int
  error : Option Int
  meta : Option (List (String × MapVal))
  metrics : Option (List (String × MapVal))
  type : Option String
deriving DecidableEq, Repr

/-- A trace is an ordered sequence of spans. -/
abbrev Trace := List Span

/-- Batch state of the encoder instance: the accumulated trace-byte region
with its trace count, and (format B) the string-byte region with the
string dictionary and its count.  The dictionary is an insertion-ordered
association list from string value to assigned index. -/
structure EncoderState where
  traceCount : Nat
  traceBytes : List Nat
  stringCount : Nat
  stringBytes : List Nat
  stringMap : List (String × Nat)
deriving DecidableEq, Repr

/-- Modelled from the spec: `_reset` of the base encoder (0.4.js, not in
src) clears the trace-byte region, string-byte region, dictionary and
counters to the initial empty state. -/
def resetState : EncoderState :=
  { traceCount := 0, traceBytes := [], stringCount := 0, stringBytes := [], stringMap := [] }

/-- Big-endian byte list: `k` bytes of `n` (mod `2 ^ (8 * k)`). -/
def beBytes : Nat → Nat → List Nat
  | 0, _ => []
  | k + 1, n => (n / 256 ^ k) % 256 :: beBytes k n

/-- UTF-8 encoding of one Unicode code point. -/
def utf8Char (c : Nat) : List Nat :=
  if c < 0x80 then [c]
  else if c < 0x800 then
    [0xc0 + c / 64, 0x80 + c % 64]
  else if c < 0x10000 then
    [0xe0 + c / 4096, 0x80 + c / 64 % 64, 0x80 + c % 64]
  else
    [0xf0 + c / 262144, 0x80 + c / 4096 % 64, 0x80 + c / 64 % 64, 0x80 + c % 64]

/-- UTF-8 bytes of a string. -/
def utf8Bytes (s : String) : List Nat :=
  (s.data.map fun c => utf8Char c.toNat).flatten

/-- Modelled from the spec: the MessagePack byte-string header for a string
of `n` bytes (fixstr below 32, then the 8/16/32-bit length forms). -/
def strHeader (n : Nat) : List Nat :=
  if n < 32 then [0xa0 + n]
  else if n < 256 then [0xd9, n]
  else if n < 65536 then 0xda :: beBytes 2 n
  else 0xdb :: beBytes 4 n

/-- Modelled from the spec: `Chunk.write` (the string-byte region's write,
not in src) appends the MessagePack string encoding, a byte-length header
followed by the raw UTF-8 bytes. -/
def strBytes (v : String) : List Nat :=
  strHeader (utf8Bytes v).length ++ utf8Bytes v

/-- Modelled from the spec (4.1): narrowest-fit MessagePack integer
encoding — fixint for small values, then the 8/16/32/64-bit unsigned or
signed forms.  Meaningful on the contract range `[-2^63, 2^64)`; the
fail-fast check for that range lives in `encodeInteger`. -/
def intBytes (n : Int) : List Nat :=
  if 0 ≤ n then
    let m := n.toNat
    if m < 128 then [m]
    else if m < 256 then [0xcc, m]
    else if m < 65536 then 0xcd :: beBytes 2 m
    else if m < 4294967296 then 0xce :: beBytes 4 m
    else 0xcf :: beBytes 8 m
  else
    if -32 ≤ n then [(n + 256).toNat]
    else if -128 ≤ n then [0xd0, (n + 256).toNat]
    else if -32768 ≤ n then 0xd1 :: beBytes 2 (n + 65536).toNat
    else if -2147483648 ≤ n then 0xd2 :: beBytes 4 (n + 4294967296).toNat
    else 0xd3 :: beBytes 8 (n + 18446744073709551616).toNat

/-- The integer contract range of the spec (4.1): `[-2^63, 2^64)`, the
`int64`/`uint64` values the Primitive Writer supports.  Matched on the
integer's sign so that deciding it is a bounded computation. -/
def intInRange (n : Int) : Bool :=
  match n with
  | Int.ofNat m => decide (m < 18446744073709551616)
  | Int.negSucc m => decide (m < 9223372036854775808)

/-- Modelled from the spec: `_encodeInteger` of the base encoder (0.4.js,
not in src).  An absent value (`undefined`) or a value outside the
supported `int64`/`uint64` range is a programming-contract violation and
fails fast (`none`); otherwise the narrowest-fit bytes are appended. -/
def encodeInteger (bytes : List Nat) (value : Option Int) : Option (List Nat) :=
  match value with
  | none => none
  | some n =>
    if intInRange n then some (bytes ++ intBytes n)
    else none

/-- Modelled from the spec: `_encodeId` of the base encoder (0.4.js, not
in src) writes a 64-bit identifier in the fixed 64-bit unsigned form
(`0xcf` plus eight big-endian bytes), never a narrower form; an identifier
outside the 64-bit range fails fast. -/
def encodeId (bytes : List Nat) (id : Nat) : Option (List Nat) :=
  if id < 18446744073709551616 then some (bytes ++ 0xcf :: beBytes 8 id)
  else none

/-- Modelled from the spec: `_encodeArrayPrefix` of the base encoder
(0.4.js, not in src) — the MessagePack array header appropriate to the
length: fixarray for ≤ 15 elements, the 16-bit form for ≤ 65535, the
32-bit form otherwise. -/
def arrayHeader (n : Nat) : List Nat :=
  if n ≤ 15 then [0x90 + n]
  else if n ≤ 65535 then 0xdc :: beBytes 2 n
  else 0xdd :: beBytes 4 n

/-- Modelled from the spec: the MessagePack map header sized to the key
count (fixmap for ≤ 15 keys, then the 16/32-bit forms). -/
def mapHeader (n : Nat) : List Nat :=
  if n ≤ 15 then [0x80 + n]
  else if n ≤ 65535 then 0xde :: beBytes 2 n
  else 0xdf :: beBytes 4 n

/-- Append bytes to the trace-byte region (the buffer every `_encode` call
in 0.5.js writes into). -/
def pushTrace (st : EncoderState) (bs : List Nat) : EncoderState :=
  { st with traceBytes := st.traceBytes ++ bs }

/-- Source `_cacheString` (0.5.js lines 52–57): if the value is not yet in
the dictionary it is assigned the next index (the dictionary size before
insertion), the count is bumped and the MessagePack string bytes are
appended to the string-byte region; otherwise nothing changes. -/
def cacheString (st : EncoderState) (value : String) : EncoderState :=
  if (st.stringMap.lookup value).isSome then st
  else
    { st with
      stringMap := st.stringMap ++ [(value, st.stringCount)]
      stringCount := st.stringCount + 1
      stringBytes := st.stringBytes ++ strBytes value }

/-- The index `_encodeString` writes for `v`: the dictionary entry for `v`
right after `_cacheString` has interned it. -/
def internIdx (st : EncoderState) (v : String) : Nat :=
  (((cacheString st v).stringMap).lookup v).getD 0

/-- Source `_encodeString` (0.5.js lines 47–50): an absent value defaults
to the empty string, the value is interned via `_cacheString`, and the
assigned index is written into the trace-byte region with
`_encodeInteger`. -/
def encodeString (st : EncoderState) (value : Option String) : Option EncoderState :=
  (encodeInteger (cacheString st (value.getD "")).traceBytes
      (some (Int.ofNat (internIdx st (value.getD ""))))).map
    fun b => { cacheString st (value.getD "") with traceBytes := b }

/-- State-level form of `_encodeInteger` writing into the trace-byte
region. -/
def encodeIntS (st : EncoderState) (value : Option Int) : Option EncoderState :=
  (encodeInteger st.traceBytes value).map fun b => { st with traceBytes := b }

/-- State-level form of `_encodeId` writing into the trace-byte region. -/
def encodeIdS (st : EncoderState) (id : Nat) : Option EncoderState :=
  (encodeId st.traceBytes id).map fun b => { st with traceBytes := b }

/-- Modelled from the spec: one map value — a string goes through the
format-specific `_encodeString` (so format B interns it), a number is
written as an IEEE-754 `float64` (`0xcb` plus its eight pattern bytes). -/
def encodeMapVal (st : EncoderState) (v : MapVal) : Option EncoderState :=
  match v with
  | .str s => encodeString st (some s)
  | .num bits => some (pushTrace st (0xcb :: beBytes 8 bits))

/-- Modelled from the spec: the key/value loop of `_encodeMap` — each key
through `_encodeString`, each value through the value encoder, in
iteration order. -/
def encodePairs (st : EncoderState) : List (String × MapVal) → Option EncoderState
  | [] => some st
  | (k, v) :: rest =>
    (encodeString st (some k)).bind fun st1 =>
    (encodeMapVal st1 v).bind fun st2 => encodePairs st2 rest

/-- Modelled from the spec: `_encodeMap` of the base encoder (0.4.js, not
in src) — a map header sized to the key count, then the key/value pairs. -/
def encodeMap (st : EncoderState) (pairs : List (String × MapVal)) : Option EncoderState :=
  encodePairs (pushTrace st (mapHeader pairs.length)) pairs

/-- The per-span body of source `_encode` (0.5.js lines 30–44): the
`ARRAY_OF_TWELVE` tag byte then the twelve fields in order — service,
name, resource, trace_id, span_id, parent_id, start, duration, error,
meta, metrics, type.  `start`/`duration` default to 0 when falsy
(`span.start || 0`); `error` is passed to `_encodeInteger` unchanged;
`meta`/`metrics` default to the empty map. -/
def encodeSpan (st : EncoderState) (s : Span) : Option EncoderState :=
  (encodeString (pushTrace st [0x9c]) s.service).bind fun st1 =>
  (encodeString st1 s.name).bind fun st2 =>
  (encodeString st2 s.resource).bind fun st3 =>
  (encodeIdS st3 s.trace_id).bind fun st4 =>
  (encodeIdS st4 s.span_id).bind fun st5 =>
  (encodeIdS st5 s.parent_id).bind fun st6 =>
  (encodeIntS st6 (some (s.start.getD 0))).bind fun st7 =>
  (encodeIntS st7 (some (s.duration.getD 0))).bind fun st8 =>
  (encodeIntS st8 s.error).bind fun st9 =>
  (encodeMap st9 (s.meta.getD [])).bind fun st10 =>
  (encodeMap st10 (s.metrics.getD [])).bind fun st11 =>
  encodeString st11 s.type

/-- The span loop of source `_encode`. -/
def encodeSpans (st : EncoderState) : List Span → Option EncoderState
  | [] => some st
  | s :: rest => (encodeSpan st s).bind fun st1 => encodeSpans st1 rest

/-- Source `_encode` (0.5.js lines 27–45): the array header for the
trace's span count, then each span in order. -/
def encodeTrace (st : EncoderState) (trace : Trace) : Option EncoderState :=
  encodeSpans (pushTrace st (arrayHeader trace.length)) trace

/-- Modelled from the spec: the base encoder's `encode(trace)` entry point
(0.4.js, not in src) bumps the batch's trace count and appends the trace's
encoding to the trace-byte region via `_encode`. -/
def encode (st : EncoderState) (trace : Trace) : Option EncoderState :=
  encodeTrace { st with traceCount := st.traceCount + 1 } trace

/-- Zero or more `encode` calls in sequence — one batch's accumulation. -/
def encodeBatch (st : EncoderState) : List Trace → Option EncoderState
  | [] => some st
  | t :: rest => (encode st t).bind fun st1 => encodeBatch st1 rest

/-- Modelled from the spec: `_writeArrayPrefix` of the base encoder
(0.4.js, not in src), the header written in front of each table when the
payload is assembled.  `makePayload` in 0.5.js budgets a constant 5 bytes
per table header (`this._stringBytes.length + 5`,
`this._traceBytes.length + 5`), so — consistently with the spec's
requirement that size computation and write logic stay in lock-step and
that the buffer has no trailing unused bytes — this header is the fixed
5-byte 32-bit array form: `0xdd` plus four big-endian count bytes,
regardless of the element count. -/
def writeArrayHeader (n : Nat) : List Nat :=
  0xdd :: beBytes 4 n

/-- Source `_writeStrings` (0.5.js lines 59–64): the string-table section —
the array header for the dictionary size followed by the string-byte
region. -/
def writeStrings (st : EncoderState) : List Nat :=
  writeArrayHeader st.stringCount ++ st.stringBytes

/-- Modelled from the spec: `_writeTraces` of the base encoder (0.4.js,
not in src) — the trace-table section, the array header for the trace
count followed by the trace-byte region. -/
def writeTraces (st : EncoderState) : List Nat :=
  writeArrayHeader st.traceCount ++ st.traceBytes

/-- The size `makePayload` (0.5.js lines 10–13) precomputes and allocates:
1 byte for the outer header, plus `stringBytes.length + 5` for the string
table, plus `traceBytes.length + 5` for the trace table. -/
def payloadAllocSize (st : EncoderState) : Nat :=
  1 + (st.stringBytes.length + 5) + (st.traceBytes.length + 5)

/-- Source `makePayload` (0.5.js lines 9–25): write the `ARRAY_OF_TWO`
tag byte `0x92`, then the string-table section, then the trace-table
section, then reset the batch state.  Returns the finished buffer and the
encoder state after the reset. -/
def makePayload (st : EncoderState) : List Nat × EncoderState :=
  (0x92 :: (writeStrings st ++ writeTraces st), resetState)

/-- The width of the header that the array-header width rule (spec 4.1)
would give: 1 byte for ≤ 15 elements, 3 bytes for ≤ 65535, 5 bytes
otherwise. -/
def ruleHeaderSize (n : Nat) : Nat :=
  (arrayHeader n).length

/-- The payload size exactly as claim C1 words it: 1 byte for the outer
header, plus each table's header sized per the array-header width rule,
plus each byte region.  (A claim-side definition, to be compared with
`payloadAllocSize`, the size the source computes.) -/
def claimPayloadSize (st : EncoderState) : Nat :=
  1 + (ruleHeaderSize st.stringCount + st.stringBytes.length)
    + (ruleHeaderSize st.traceCount + st.traceBytes.length)

/-- Well-formedness of the dictionary, established at reset and preserved
by every operation: the indices are exactly `0, 1, 2, …` in insertion
order, the count equals the dictionary's size, and no string occurs
twice. -/
def DictInv (st : EncoderState) : Prop :=
  st.stringMap.map Prod.snd = List.range st.stringMap.length ∧
  st.stringCount = st.stringMap.length ∧
  (st.stringMap.map Prod.fst).Nodup

/-- The strings a span submits to `_encodeString`/`_cacheString`, in
submission order: the three leading string fields (absent ones defaulting
to `""`), the map keys and string map values, and finally `type`. -/
def valStrings : MapVal → List String
  | MapVal.str s => [s]
  | MapVal.num _ => []

def pairsStrings : List (String × MapVal) → List String
  | [] => []
  | (k, v) :: rest => k :: (valStrings v ++ pairsStrings rest)

def spanStrings (s : Span) : List String :=
  [s.service.getD "", s.name.getD "", s.resource.getD ""]
    ++ pairsStrings (s.meta.getD []) ++ pairsStrings (s.metrics.getD [])
    ++ [s.type.getD ""]

def traceStrings (t : Trace) : List String :=
  (t.map spanStrings).flatten

def batchStrings (ts : List Trace) : List String :=
  (ts.map traceStrings).flatten

/-- First-seen deduplication: fold the submitted strings over an initial
key list, appending each string the first time it is seen. -/
def firstSeen (ks : List String) : List String → List String
  | [] => ks
  | v :: vs => firstSeen (if v ∈ ks then ks else ks ++ [v]) vs

/-- The dictionary's key list, in insertion order. -/
def keys (st : EncoderState) : List String :=
  st.stringMap.map Prod.fst

/-- A concrete sample span used by the witnesses: two interned strings
(`"web"`, `"GET /a"`), absent resource and empty type (both intern `""`),
absent start, explicit duration and error. -/
def wSpan : Span :=
  { service := some "web", name := some "GET /a", resource := none,
    trace_id := 1, span_id := 1, parent_id := 0,
    start := none, duration := some 5, error := some 0,
    meta := none, metrics := none, type := some "" }

/-- The sample span with its `error` field absent. -/
def wNoErr : Span :=
  { wSpan with error := none }

/-- The batch state after encoding `[[wSpan]]` from reset. -/
def wState : EncoderState :=
  { traceCount := 1
    traceBytes := [145, 156, 0, 1, 2, 207, 0, 0, 0, 0, 0, 0, 0, 1,
      207, 0, 0, 0, 0, 0, 0, 0, 1, 207, 0, 0, 0, 0, 0, 0, 0, 0, 0, 5, 0, 128, 128, 2]
    stringCount := 3
    stringBytes := [163, 119, 101, 98, 166, 71, 69, 84, 32, 47, 97, 160]
    stringMap := [("web", 0), ("GET /a", 1), ("", 2)] }

/-- The state after `_encodeString` of `"web"` from reset. -/
def wStr : EncoderState :=
  { traceCount := 0, traceBytes := [0], stringCount := 1,
    stringBytes := [163, 119, 101, 98], stringMap := [("web", 0)] }

/-- The state after `_encodeString` of `"web"` twice from reset. -/
def wStr2 : EncoderState :=
  { traceCount := 0, traceBytes := [0, 0], stringCount := 1,
    stringBytes := [163, 119, 101, 98], stringMap := [("web", 0)] }

/-- The state after `_encodeString` of an absent value from reset. -/
def wEmpty : EncoderState :=
  { traceCount := 0, traceBytes := [0], stringCount := 1,
    stringBytes := [160], stringMap := [("", 0)] }

/-! ## Lookup and byte-length basics -/

theorem lookup_cons {α β : Type} [BEq α] (a k : α) (b : β) (es : List (α × β)) :
    List.lookup a ((k, b) :: es) = if a == k then some b else List.lookup a es := by
  cases h : a == k <;> simp [List.lookup, h]

theorem lookup_append {α β : Type} [BEq α] (a : α) (l₁ l₂ : List (α × β)) :
    List.lookup a (l₁ ++ l₂) = (List.lookup a l₁).or (List.lookup a l₂) := by
  induction l₁ with
  | nil => simp [List.lookup]
  | cons p t ih =>
    obtain ⟨k, b⟩ := p
    cases h : a == k <;> simp [lookup_cons, h, ih]

theorem lookup_mem {α β : Type} [BEq α] [LawfulBEq α] {a : α} {b : β} {l : List (α × β)}
    (h : List.lookup a l = some b) : (a, b) ∈ l := by
  induction l with
  | nil => simp [List.lookup] at h
  | cons p t ih =>
    obtain ⟨k, c⟩ := p
    rw [lookup_cons] at h
    cases hk : a == k
    · rw [if_neg (by simp [hk])] at h
      exact List.mem_cons_of_mem _ (ih h)
    · rw [if_pos (by simp [hk])] at h
      cases h
      simp [eq_of_beq hk]

theorem lookup_isSome_iff_mem {α β : Type} [BEq α] [LawfulBEq α] (a : α) (l : List (α × β)) :
    (List.lookup a l).isSome = true ↔ a ∈ l.map Prod.fst := by
  induction l with
  | nil => simp [List.lookup]
  | cons p t ih =>
    obtain ⟨k, c⟩ := p
    cases hk : a == k
    · have hne : ¬a = k := fun h => by simp [h] at hk
      simp [lookup_cons, hk, ih, hne]
    · simp [lookup_cons, hk, eq_of_beq hk]

theorem lookup_extend {α β : Type} [BEq α] {a : α} {b : β} {l₁ l₂ : List (α × β)}
    (hp : l₁ <+: l₂) (h : List.lookup a l₁ = some b) : List.lookup a l₂ = some b := by
  obtain ⟨t, rfl⟩ := hp
  rw [lookup_append, h]
  rfl

theorem beBytes_length (k n : Nat) : (beBytes k n).length = k := by
  induction k generalizing n with
  | zero => rfl
  | succ k ih => simp [beBytes, ih]

theorem arrayHeader_length_pos (n : Nat) : 0 < (arrayHeader n).length := by
  unfold arrayHeader
  split
  · simp
  · split <;> simp

/-! ## `_cacheString` facts -/

theorem cacheString_of_isSome {st : EncoderState} {v : String}
    (h : (st.stringMap.lookup v).isSome) : cacheString st v = st := by
  simp [cacheString, h]

theorem cacheString_of_none {st : EncoderState} {v : String}
    (h : st.stringMap.lookup v = none) :
    cacheString st v =
      { st with
        stringMap := st.stringMap ++ [(v, st.stringCount)]
        stringCount := st.stringCount + 1
        stringBytes := st.stringBytes ++ strBytes v } := by
  simp [cacheString, h]

theorem cacheString_traceBytes (st : EncoderState) (v : String) :
    (cacheString st v).traceBytes = st.traceBytes := by
  unfold cacheString
  split <;> rfl

theorem cacheString_traceCount (st : EncoderState) (v : String) :
    (cacheString st v).traceCount = st.traceCount := by
  unfold cacheString
  split <;> rfl

theorem cacheString_stringMap_ext (st : EncoderState) (v : String) :
    st.stringMap <+: (cacheString st v).stringMap := by
  unfold cacheString
  split
  · exact List.prefix_rfl
  · exact ⟨[(v, st.stringCount)], rfl⟩

theorem cacheString_stringCount_le (st : EncoderState) (v : String) :
    st.stringCount ≤ (cacheString st v).stringCount := by
  unfold cacheString
  split
  · exact Nat.le_refl _
  · exact Nat.le_succ _

theorem cacheString_lookup_isSome (st : EncoderState) (v : String) :
    ((cacheString st v).stringMap.lookup v).isSome = true := by
  unfold cacheString
  split
  · assumption
  · next h =>
    rw [Option.not_isSome_iff_eq_none] at h
    simp only []
    rw [lookup_append, h, Option.none_or, lookup_cons]
    simp

theorem dictInv_reset : DictInv resetState := by
  refine ⟨rfl, rfl, ?_⟩
  simp [resetState]

theorem dictInv_cacheString {st : EncoderState} (h : DictInv st) (v : String) :
    DictInv (cacheString st v) := by
  obtain ⟨hsnd, hcnt, hnd⟩ := h
  unfold cacheString
  split
  · exact ⟨hsnd, hcnt, hnd⟩
  · next hnone =>
    rw [Option.not_isSome_iff_eq_none] at hnone
    have hv : v ∉ st.stringMap.map Prod.fst := by
      rw [← lookup_isSome_iff_mem, hnone]
      simp
    refine ⟨?_, ?_, ?_⟩
    · simp only [List.map_append, List.length_append, hsnd, List.map_cons, List.map_nil,
        List.length_cons, List.length_nil]
      rw [hcnt, List.range_succ]
    · simp [hcnt]
    · simp only [List.map_append, List.map_cons, List.map_nil]
      rw [List.nodup_append]
      exact ⟨hnd, List.nodup_singleton v, by simpa using hv⟩

theorem internIdx_spec {st : EncoderState} (h : DictInv st) (v : String) :
    (cacheString st v).stringMap.lookup v = some (internIdx st v) ∧
    internIdx st v < (cacheString st v).stringCount := by
  obtain ⟨hsnd, hcnt, _⟩ := h
  cases hl : st.stringMap.lookup v with
  | some i =>
    have hc : cacheString st v = st := cacheString_of_isSome (by simp [hl])
    have hmem : (v, i) ∈ st.stringMap := lookup_mem hl
    have hi : i ∈ st.stringMap.map Prod.snd := List.mem_map_of_mem Prod.snd hmem
    rw [hsnd] at hi
    have hlen : i < st.stringMap.length := List.mem_range.mp hi
    have hidx : internIdx st v = i := by
      rw [internIdx, hc, hl]
      rfl
    rw [hc, hidx]
    exact ⟨hl, by omega⟩
  | none =>
    have hc := cacheString_of_none hl
    have hlook : (cacheString st v).stringMap.lookup v = some st.stringCount := by
      rw [hc]
      simp only [lookup_append, hl, Option.none_or, lookup_cons]
      simp
    rw [internIdx, hlook]
    refine ⟨rfl, ?_⟩
    rw [hc]
    simp

/-! ## The step relation: what one encoder operation may do to the batch -/

/-- Everything the string-table claims need about a batch operation: the
dictionary is only extended at the end, the count never decreases, the
trace-byte region is only appended to, and well-formedness is kept. -/
def StepRel (st st' : EncoderState) : Prop :=
  st.stringMap <+: st'.stringMap ∧ st.stringCount ≤ st'.stringCount ∧
  st.traceBytes <+: st'.traceBytes ∧ (DictInv st → DictInv st')

theorem stepRel_refl (st : EncoderState) : StepRel st st :=
  ⟨List.prefix_rfl, Nat.le_refl _, List.prefix_rfl, id⟩

theorem stepRel_trans {a b c : EncoderState} (h₁ : StepRel a b) (h₂ : StepRel b c) :
    StepRel a c :=
  ⟨h₁.1.trans h₂.1, Nat.le_trans h₁.2.1 h₂.2.1, h₁.2.2.1.trans h₂.2.2.1,
    fun h => h₂.2.2.2 (h₁.2.2.2 h)⟩

theorem stepRel_cacheString (st : EncoderState) (v : String) :
    StepRel st (cacheString st v) := by
  refine ⟨cacheString_stringMap_ext st v, cacheString_stringCount_le st v, ?_, fun h => dictInv_cacheString h v⟩
  rw [cacheString_traceBytes]

theorem stepRel_pushTrace (st : EncoderState) (bs : List Nat) :
    StepRel st (pushTrace st bs) :=
  ⟨List.prefix_rfl, Nat.le_refl _, ⟨bs, rfl⟩, id⟩

/-- What a successful `_encodeString` call produces: the state after
interning, with the interned index's integer encoding appended to the
trace-byte region (and the index small enough for the integer writer). -/
theorem intInRange_iff (n : Int) :
    intInRange n = true ↔ -9223372036854775808 ≤ n ∧ n < 18446744073709551616 := by
  cases n with
  | ofNat m =>
    simp only [intInRange, decide_eq_true_eq, Int.ofNat_eq_natCast]
    omega
  | negSucc m =>
    simp only [intInRange, decide_eq_true_eq, Int.negSucc_eq]
    omega

theorem encodeInteger_some (bytes : List Nat) (n : Int) :
    encodeInteger bytes (some n) =
      if intInRange n then some (bytes ++ intBytes n) else none := rfl

theorem encodeInteger_none (bytes : List Nat) : encodeInteger bytes none = none := rfl

theorem encodeString_eq {st st' : EncoderState} {v : Option String}
    (h : encodeString st v = some st') :
    st' = { cacheString st (v.getD "") with
            traceBytes := st.traceBytes ++ intBytes (Int.ofNat (internIdx st (v.getD ""))) } ∧
    internIdx st (v.getD "") < 18446744073709551616 := by
  unfold encodeString at h
  rw [encodeInteger_some] at h
  by_cases hr : intInRange (Int.ofNat (internIdx st (v.getD ""))) = true
  · rw [if_pos hr, Option.map_some'] at h
    cases h
    rw [cacheString_traceBytes]
    refine ⟨rfl, ?_⟩
    simpa [intInRange] using hr
  · rw [if_neg hr] at h
    simp at h

theorem stepRel_encodeString {st st' : EncoderState} {v : Option String}
    (h : encodeString st v = some st') : StepRel st st' := by
  obtain ⟨he, -⟩ := encodeString_eq h
  have hc := stepRel_cacheString st (v.getD "")
  have h1 : st'.stringMap = (cacheString st (v.getD "")).stringMap := by rw [he]
  have h2 : st'.stringCount = (cacheString st (v.getD "")).stringCount := by rw [he]
  have h3 : st'.traceBytes = st.traceBytes ++ intBytes (Int.ofNat (internIdx st (v.getD ""))) := by
    rw [he]
  refine ⟨h1 ▸ hc.1, h2 ▸ hc.2.1, ⟨_, h3.symm⟩, fun hv => ?_⟩
  have hd := dictInv_cacheString hv (v.getD "")
  unfold DictInv at hd ⊢
  rw [h1, h2]
  exact hd

theorem encodeString_fields {st st' : EncoderState} {v : Option String}
    (h : encodeString st v = some st') :
    st'.traceBytes = st.traceBytes ++ intBytes (Int.ofNat (internIdx st (v.getD ""))) ∧
    st'.stringMap = (cacheString st (v.getD "")).stringMap ∧
    st'.stringBytes = (cacheString st (v.getD "")).stringBytes ∧
    st'.stringCount = (cacheString st (v.getD "")).stringCount := by
  obtain ⟨he, -⟩ := encodeString_eq h
  exact ⟨by rw [he], by rw [he], by rw [he], by rw [he]⟩

theorem encodeIntS_eq {st st' : EncoderState} {v : Option Int}
    (h : encodeIntS st v = some st') :
    ∃ n, v = some n ∧ -9223372036854775808 ≤ n ∧ n < 18446744073709551616 ∧
      st' = { st with traceBytes := st.traceBytes ++ intBytes n } := by
  cases v with
  | none => simp [encodeIntS, encodeInteger] at h
  | some n =>
    simp only [encodeIntS, encodeInteger] at h
    by_cases hr : intInRange n = true
    · rw [if_pos hr] at h
      rw [Option.map_some'] at h
      cases h
      obtain ⟨hl, hu⟩ := (intInRange_iff n).mp hr
      exact ⟨n, rfl, hl, hu, rfl⟩
    · rw [if_neg hr] at h
      simp at h

theorem stepRel_encodeIntS {st st' : EncoderState} {v : Option Int}
    (h : encodeIntS st v = some st') : StepRel st st' := by
  obtain ⟨n, -, -, -, rfl⟩ := encodeIntS_eq h
  exact ⟨List.prefix_rfl, Nat.le_refl _, ⟨_, rfl⟩, fun hv => hv⟩

theorem encodeIdS_eq {st st' : EncoderState} {i : Nat}
    (h : encodeIdS st i = some st') :
    i < 18446744073709551616 ∧
      st' = { st with traceBytes := st.traceBytes ++ 0xcf :: beBytes 8 i } := by
  simp only [encodeIdS, encodeId] at h
  by_cases hr : i < 18446744073709551616
  · rw [if_pos hr] at h
    rw [Option.map_some'] at h
    cases h
    exact ⟨hr, rfl⟩
  · rw [if_neg hr] at h
    simp at h

theorem stepRel_encodeIdS {st st' : EncoderState} {i : Nat}
    (h : encodeIdS st i = some st') : StepRel st st' := by
  obtain ⟨-, rfl⟩ := encodeIdS_eq h
  exact ⟨List.prefix_rfl, Nat.le_refl _, ⟨_, rfl⟩, fun hv => hv⟩

theorem stepRel_encodeMapVal {st st' : EncoderState} {v : MapVal}
    (h : encodeMapVal st v = some st') : StepRel st st' := by
  cases v with
  | str s =>
    exact stepRel_encodeString h
  | num bits =>
    cases h
    exact stepRel_pushTrace st _

theorem stepRel_encodePairs {ps : List (String × MapVal)} :
    ∀ {st st' : EncoderState}, encodePairs st ps = some st' → StepRel st st' := by
  induction ps with
  | nil =>
    intro st st' h
    cases h
    exact stepRel_refl st
  | cons p rest ih =>
    intro st st' h
    obtain ⟨k, v⟩ := p
    unfold encodePairs at h
    rw [Option.bind_eq_some] at h
    obtain ⟨st1, h1, h2⟩ := h
    rw [Option.bind_eq_some] at h2
    obtain ⟨st2, h2, h3⟩ := h2
    exact stepRel_trans (stepRel_encodeString h1)
      (stepRel_trans (stepRel_encodeMapVal h2) (ih h3))

theorem stepRel_encodeMap {st st' : EncoderState} {ps : List (String × MapVal)}
    (h : encodeMap st ps = some st') : StepRel st st' :=
  stepRel_trans (stepRel_pushTrace st (mapHeader ps.length)) (stepRel_encodePairs h)

theorem stepRel_encodeSpan {st st' : EncoderState} {s : Span}
    (h : encodeSpan st s = some st') : StepRel st st' := by
  simp only [encodeSpan, Option.bind_eq_some] at h
  obtain ⟨s1, h1, s2, h2, s3, h3, s4, h4, s5, h5, s6, h6, s7, h7, s8, h8, s9, h9,
    s10, h10, s11, h11, h12⟩ := h
  exact stepRel_trans (stepRel_pushTrace st [0x9c]) <| stepRel_trans (stepRel_encodeString h1) <|
    stepRel_trans (stepRel_encodeString h2) <| stepRel_trans (stepRel_encodeString h3) <|
    stepRel_trans (stepRel_encodeIdS h4) <| stepRel_trans (stepRel_encodeIdS h5) <|
    stepRel_trans (stepRel_encodeIdS h6) <| stepRel_trans (stepRel_encodeIntS h7) <|
    stepRel_trans (stepRel_encodeIntS h8) <| stepRel_trans (stepRel_encodeIntS h9) <|
    stepRel_trans (stepRel_encodeMap h10) <| stepRel_trans (stepRel_encodeMap h11) <|
    stepRel_encodeString h12

theorem stepRel_encodeSpans {spans : List Span} :
    ∀ {st st' : EncoderState}, encodeSpans st spans = some st' → StepRel st st' := by
  induction spans with
  | nil =>
    intro st st' h
    cases h
    exact stepRel_refl st
  | cons s rest ih =>
    intro st st' h
    unfold encodeSpans at h
    rw [Option.bind_eq_some] at h
    obtain ⟨st1, h1, h2⟩ := h
    exact stepRel_trans (stepRel_encodeSpan h1) (ih h2)

theorem stepRel_encodeTrace {st st' : EncoderState} {t : Trace}
    (h : encodeTrace st t = some st') : StepRel st st' :=
  stepRel_trans (stepRel_pushTrace st (arrayHeader t.length)) (stepRel_encodeSpans h)

theorem stepRel_encode {st st' : EncoderState} {t : Trace}
    (h : encode st t = some st') : StepRel st st' := by
  unfold encode at h
  have h0 : StepRel st { st with traceCount := st.traceCount + 1 } :=
    ⟨List.prefix_rfl, Nat.le_refl _, List.prefix_rfl, fun hv => hv⟩
  exact stepRel_trans h0 (stepRel_encodeTrace h)

theorem stepRel_encodeBatch {ts : List Trace} :
    ∀ {st st' : EncoderState}, encodeBatch st ts = some st' → StepRel st st' := by
  induction ts with
  | nil =>
    intro st st' h
    cases h
    exact stepRel_refl st
  | cons t rest ih =>
    intro st st' h
    unfold encodeBatch at h
    rw [Option.bind_eq_some] at h
    obtain ⟨st1, h1, h2⟩ := h
    exact stepRel_trans (stepRel_encode h1) (ih h2)

/-! ## Dictionary keys as first-seen deduplication of the submitted strings -/

theorem keys_cacheString (st : EncoderState) (v : String) :
    keys (cacheString st v) = if v ∈ keys st then keys st else keys st ++ [v] := by
  unfold cacheString
  by_cases hm : v ∈ keys st
  · rw [if_pos ((lookup_isSome_iff_mem v st.stringMap).mpr hm), if_pos hm]
  · rw [if_neg (by rw [lookup_isSome_iff_mem]; exact hm), if_neg hm]
    simp [keys]

theorem firstSeen_one (ks : List String) (v : String) :
    firstSeen ks [v] = if v ∈ ks then ks else ks ++ [v] := rfl

theorem firstSeen_append (l₁ l₂ : List String) :
    ∀ ks, firstSeen ks (l₁ ++ l₂) = firstSeen (firstSeen ks l₁) l₂ := by
  induction l₁ with
  | nil => intro ks; rfl
  | cons v t ih =>
    intro ks
    simp only [List.cons_append, firstSeen]
    exact ih _

theorem keys_encodeString {st st' : EncoderState} {v : Option String}
    (h : encodeString st v = some st') :
    keys st' = firstSeen (keys st) [v.getD ""] ∧
      st'.stringMap = (cacheString st (v.getD "")).stringMap := by
  obtain ⟨he, -⟩ := encodeString_eq h
  have h1 : st'.stringMap = (cacheString st (v.getD "")).stringMap := by rw [he]
  refine ⟨?_, h1⟩
  rw [firstSeen_one, ← keys_cacheString]
  unfold keys
  rw [h1]

theorem stringMap_encodeIdS {st st' : EncoderState} {i : Nat}
    (h : encodeIdS st i = some st') : st'.stringMap = st.stringMap := by
  obtain ⟨-, he⟩ := encodeIdS_eq h
  rw [he]

theorem stringMap_encodeIntS {st st' : EncoderState} {v : Option Int}
    (h : encodeIntS st v = some st') : st'.stringMap = st.stringMap := by
  obtain ⟨n, -, -, -, he⟩ := encodeIntS_eq h
  rw [he]

theorem keys_encodeMapVal {st st' : EncoderState} {v : MapVal}
    (h : encodeMapVal st v = some st') :
    keys st' = firstSeen (keys st) (valStrings v) := by
  cases v with
  | str s =>
    simpa [valStrings] using (keys_encodeString h).1
  | num bits =>
    cases h
    rfl

theorem keys_encodePairs {ps : List (String × MapVal)} :
    ∀ {st st' : EncoderState}, encodePairs st ps = some st' →
      keys st' = firstSeen (keys st) (pairsStrings ps) := by
  induction ps with
  | nil =>
    intro st st' h
    cases h
    rfl
  | cons p rest ih =>
    intro st st' h
    obtain ⟨k, v⟩ := p
    unfold encodePairs at h
    rw [Option.bind_eq_some] at h
    obtain ⟨st1, h1, h2⟩ := h
    rw [Option.bind_eq_some] at h2
    obtain ⟨st2, h2, h3⟩ := h2
    have e1 : keys st1 = firstSeen (keys st) [k] := (keys_encodeString h1).1
    have e2 := keys_encodeMapVal h2
    have e3 := ih h3
    have hsplit : pairsStrings ((k, v) :: rest) = [k] ++ (valStrings v ++ pairsStrings rest) := rfl
    rw [hsplit, firstSeen_append, firstSeen_append, ← e1, ← e2]
    exact e3

theorem keys_encodeMap {st st' : EncoderState} {ps : List (String × MapVal)}
    (h : encodeMap st ps = some st') :
    keys st' = firstSeen (keys st) (pairsStrings ps) := by
  unfold encodeMap at h
  have he := keys_encodePairs h
  exact he

theorem keys_encodeSpan {st st' : EncoderState} {s : Span}
    (h : encodeSpan st s = some st') :
    keys st' = firstSeen (keys st) (spanStrings s) := by
  simp only [encodeSpan, Option.bind_eq_some] at h
  obtain ⟨s1, h1, s2, h2, s3, h3, s4, h4, s5, h5, s6, h6, s7, h7, s8, h8, s9, h9,
    s10, h10, s11, h11, h12⟩ := h
  have e1 : keys s1 = firstSeen (keys st) [s.service.getD ""] := (keys_encodeString h1).1
  have e2 : keys s2 = firstSeen (keys s1) [s.name.getD ""] := (keys_encodeString h2).1
  have e3 : keys s3 = firstSeen (keys s2) [s.resource.getD ""] := (keys_encodeString h3).1
  have e4 : keys s4 = keys s3 := by unfold keys; rw [stringMap_encodeIdS h4]
  have e5 : keys s5 = keys s4 := by unfold keys; rw [stringMap_encodeIdS h5]
  have e6 : keys s6 = keys s5 := by unfold keys; rw [stringMap_encodeIdS h6]
  have e7 : keys s7 = keys s6 := by unfold keys; rw [stringMap_encodeIntS h7]
  have e8 : keys s8 = keys s7 := by unfold keys; rw [stringMap_encodeIntS h8]
  have e9 : keys s9 = keys s8 := by unfold keys; rw [stringMap_encodeIntS h9]
  have e10 : keys s10 = firstSeen (keys s9) (pairsStrings (s.meta.getD [])) :=
    keys_encodeMap h10
  have e11 : keys s11 = firstSeen (keys s10) (pairsStrings (s.metrics.getD [])) :=
    keys_encodeMap h11
  have e12 : keys st' = firstSeen (keys s11) [s.type.getD ""] := (keys_encodeString h12).1
  have hsplit : spanStrings s =
      [s.service.getD ""] ++ ([s.name.getD ""] ++ ([s.resource.getD ""] ++
        (pairsStrings (s.meta.getD []) ++ (pairsStrings (s.metrics.getD []) ++
          [s.type.getD ""])))) := by
    simp [spanStrings]
  rw [hsplit, firstSeen_append, firstSeen_append, firstSeen_append, firstSeen_append,
    firstSeen_append, ← e1, ← e2, ← e3, ← e4, ← e5, ← e6, ← e7, ← e8, ← e9, ← e10, ← e11]
  exact e12

theorem keys_encodeSpans {spans : List Span} :
    ∀ {st st' : EncoderState}, encodeSpans st spans = some st' →
      keys st' = firstSeen (keys st) (traceStrings spans) := by
  induction spans with
  | nil =>
    intro st st' h
    cases h
    rfl
  | cons s rest ih =>
    intro st st' h
    unfold encodeSpans at h
    rw [Option.bind_eq_some] at h
    obtain ⟨st1, h1, h2⟩ := h
    have hsplit : traceStrings (s :: rest) = spanStrings s ++ traceStrings rest := by
      simp [traceStrings]
    rw [hsplit, firstSeen_append, ← keys_encodeSpan h1]
    exact ih h2

theorem keys_encode {st st' : EncoderState} {t : Trace}
    (h : encode st t = some st') :
    keys st' = firstSeen (keys st) (traceStrings t) := by
  unfold encode encodeTrace at h
  have he := keys_encodeSpans h
  exact he

theorem keys_encodeBatch {ts : List Trace} :
    ∀ {st st' : EncoderState}, encodeBatch st ts = some st' →
      keys st' = firstSeen (keys st) (batchStrings ts) := by
  induction ts with
  | nil =>
    intro st st' h
    cases h
    rfl
  | cons t rest ih =>
    intro st st' h
    unfold encodeBatch at h
    rw [Option.bind_eq_some] at h
    obtain ⟨st1, h1, h2⟩ := h
    have hsplit : batchStrings (t :: rest) = traceStrings t ++ batchStrings rest := by
      simp [batchStrings]
    rw [hsplit, firstSeen_append, ← keys_encode h1]
    exact ih h2

theorem firstSeen_nodup {l : List String} :
    ∀ {ks : List String}, ks.Nodup → (firstSeen ks l).Nodup := by
  induction l with
  | nil => intro ks h; exact h
  | cons v t ih =>
    intro ks h
    unfold firstSeen
    by_cases hm : v ∈ ks
    · rw [if_pos hm]
      exact ih h
    · rw [if_neg hm]
      refine ih ?_
      rw [List.nodup_append]
      exact ⟨h, List.nodup_singleton v, by simpa using hm⟩

theorem firstSeen_toFinset {l : List String} :
    ∀ ks : List String, (firstSeen ks l).toFinset = ks.toFinset ∪ l.toFinset := by
  induction l with
  | nil => intro ks; simp [firstSeen]
  | cons v t ih =>
    intro ks
    unfold firstSeen
    by_cases hm : v ∈ ks
    · rw [if_pos hm, ih]
      ext x
      simp only [Finset.mem_union, List.mem_toFinset, List.mem_cons]
      constructor
      · rintro (hx | hx)
        · exact Or.inl hx
        · exact Or.inr (Or.inr hx)
      · rintro (hx | hx | hx)
        · exact Or.inl hx
        · exact Or.inl (hx ▸ hm)
        · exact Or.inr hx
    · rw [if_neg hm, ih]
      ext x
      simp only [Finset.mem_union, List.mem_toFinset, List.mem_append, List.mem_cons,
        List.mem_singleton]
      tauto

/-- Dictionary well-formedness holds for every state reachable from reset. -/
theorem dictInv_encodeBatch {ts : List Trace} {st' : EncoderState}
    (h : encodeBatch resetState ts = some st') : DictInv st' :=
  (stepRel_encodeBatch h).2.2.2 dictInv_reset

/-! ## Payload assembly lengths -/

theorem writeStrings_length (st : EncoderState) :
    (writeStrings st).length = st.stringBytes.length + 5 := by
  simp [writeStrings, writeArrayHeader, beBytes_length]
  omega

theorem writeTraces_length (st : EncoderState) :
    (writeTraces st).length = st.traceBytes.length + 5 := by
  simp [writeTraces, writeArrayHeader, beBytes_length]
  omega

theorem payload_length (st : EncoderState) :
    ((makePayload st).1).length = 1 + (st.stringBytes.length + 5) + (st.traceBytes.length + 5) := by
  simp only [makePayload, List.length_cons, List.length_append,
    writeStrings_length, writeTraces_length]
  omega

/-- Every `encode` call strictly grows the trace-byte region (it writes at
least the trace's array header). -/
theorem encode_traceBytes_grow {st st' : EncoderState} {t : Trace}
    (h : encode st t = some st') : st.traceBytes.length < st'.traceBytes.length := by
  unfold encode encodeTrace at h
  have hs := stepRel_encodeSpans h
  have hle := hs.2.2.1.length_le
  have hp : (pushTrace { st with traceCount := st.traceCount + 1 }
      (arrayHeader t.length)).traceBytes.length
      = st.traceBytes.length + (arrayHeader t.length).length := by
    simp [pushTrace]
  rw [hp] at hle
  have := arrayHeader_length_pos t.length
  omega

theorem wState_eq : encodeBatch resetState [[wSpan]] = some wState := by decide

/-! ## The claims -/

/-- C1, counterexample: the claim sizes each table header by the
array-header width rule, but `makePayload` budgets a constant 5 bytes per
header — already at the empty batch the returned buffer is 11 bytes long
while the claim's formula gives 3. -/
theorem payload_size_rule_counterexample :
    ((makePayload resetState).1).length = 11 ∧ claimPayloadSize resetState = 3 ∧
      ((makePayload resetState).1).length ≠ claimPayloadSize resetState := by
  refine ⟨by decide, by decide, by decide⟩

/-- C1, amended: for every batch the buffer returned by `makePayload`
has length exactly the precomputed size — 1 byte for the outer 2-element
array header, plus each table's fixed 5-byte 32-bit array header
(regardless of element count) plus its byte region — with no trailing
unused bytes and no overflow. -/
theorem payload_length_eq_alloc (st : EncoderState) :
    ((makePayload st).1).length = payloadAllocSize st := by
  rw [payload_length, payloadAllocSize]

/-- C8: for every batch (the empty one included) the payload starts with
the single tag byte `0x92`, followed by the string-table section and then
the trace-table section. -/
theorem payload_layout (st : EncoderState) :
    ((makePayload st).1).head? = some 0x92 ∧
    ((makePayload st).1).drop 1 = writeStrings st ++ writeTraces st ∧
    writeStrings st = writeArrayHeader st.stringCount ++ st.stringBytes ∧
    writeTraces st = writeArrayHeader st.traceCount ++ st.traceBytes :=
  ⟨rfl, rfl, rfl, rfl⟩

/-- C9: the encoder is deterministic — encoding the same trace sequence
from a fresh (reset) state twice yields identical string-byte regions,
identical dictionaries (hence index assignments), and identical states. -/
theorem encoder_deterministic (ts : List Trace) (st₁ st₂ : EncoderState)
    (h₁ : encodeBatch resetState ts = some st₁)
    (h₂ : encodeBatch resetState ts = some st₂) :
    st₁.stringBytes = st₂.stringBytes ∧ st₁.stringMap = st₂.stringMap ∧ st₁ = st₂ := by
  have he : st₁ = st₂ := by
    rw [h₁] at h₂
    exact Option.some.inj h₂
  exact ⟨by rw [he], by rw [he], he⟩

theorem encoder_deterministic_witness :
    wState.stringBytes = wState.stringBytes ∧ wState.stringMap = wState.stringMap ∧
      wState = wState :=
  encoder_deterministic [[wSpan]] wState wState wState_eq wState_eq

/-- C7: `makePayload` resets the batch state to the initial empty state;
the empty batch is not an error and yields the minimal 11-byte payload; a
flush immediately after a flush returns that same minimal payload; and
every non-empty batch's payload is strictly longer. -/
theorem reset_and_empty_batch (st st' : EncoderState) (ts : List Trace)
    (hb : encodeBatch resetState ts = some st') (hne : ts ≠ []) :
    (makePayload st).2 = resetState ∧
    (makePayload resetState).1 = [0x92, 0xdd, 0, 0, 0, 0, 0xdd, 0, 0, 0, 0] ∧
    (makePayload ((makePayload st).2)).1 = (makePayload resetState).1 ∧
    ((makePayload resetState).1).length < ((makePayload st').1).length := by
  refine ⟨rfl, rfl, rfl, ?_⟩
  cases ts with
  | nil => exact absurd rfl hne
  | cons t rest =>
    unfold encodeBatch at hb
    rw [Option.bind_eq_some] at hb
    obtain ⟨st1, h1, h2⟩ := hb
    have hg : resetState.traceBytes.length < st1.traceBytes.length :=
      encode_traceBytes_grow h1
    have hle : st1.traceBytes.length ≤ st'.traceBytes.length :=
      (stepRel_encodeBatch h2).2.2.1.length_le
    rw [payload_length, payload_length]
    have h0 : resetState.traceBytes.length = 0 := rfl
    have h0' : resetState.stringBytes.length = 0 := rfl
    omega

theorem reset_and_empty_batch_witness :
    (makePayload resetState).2 = resetState ∧
    (makePayload resetState).1 = [0x92, 0xdd, 0, 0, 0, 0, 0xdd, 0, 0, 0, 0] ∧
    (makePayload ((makePayload resetState).2)).1 = (makePayload resetState).1 ∧
    ((makePayload resetState).1).length < ((makePayload wState).1).length :=
  reset_and_empty_batch resetState wState [[wSpan]] wState_eq (by decide)

/-- C2: every string-index field `_encodeString` writes into the trace
region is the index the dictionary assigned to the value before the write
(intern-then-reference), and it is strictly below the dictionary size both
at write time and at any later payload-assembly point (trivially `≥ 0`
since indices are naturals). -/
theorem string_index_valid (st st' st'' : EncoderState) (v : Option String) (ts : List Trace)
    (hinv : DictInv st) (h : encodeString st v = some st')
    (hb : encodeBatch st' ts = some st'') :
    st'.traceBytes = st.traceBytes ++ intBytes (Int.ofNat (internIdx st (v.getD ""))) ∧
    (cacheString st (v.getD "")).stringMap.lookup (v.getD "") =
      some (internIdx st (v.getD "")) ∧
    internIdx st (v.getD "") < st'.stringCount ∧
    internIdx st (v.getD "") < st''.stringCount := by
  obtain ⟨he, -⟩ := encodeString_eq h
  obtain ⟨hlook, hlt⟩ := internIdx_spec hinv (v.getD "")
  have ht : st'.traceBytes = st.traceBytes ++ intBytes (Int.ofNat (internIdx st (v.getD ""))) := by
    rw [he]
  have hc : st'.stringCount = (cacheString st (v.getD "")).stringCount := by rw [he]
  have h1 : internIdx st (v.getD "") < st'.stringCount := by rw [hc]; exact hlt
  have h2 : st'.stringCount ≤ st''.stringCount := (stepRel_encodeBatch hb).2.1
  exact ⟨ht, hlook, h1, by omega⟩

theorem string_index_valid_witness :
    DictInv resetState ∧
    encodeString resetState (some "web") = some wStr ∧
    wStr.traceBytes = resetState.traceBytes ++ intBytes (Int.ofNat (internIdx resetState "web")) ∧
    internIdx resetState "web" < wStr.stringCount := by
  have h : encodeString resetState (some "web") = some wStr := by decide
  have hc := string_index_valid resetState wStr wStr (some "web") [] dictInv_reset h rfl
  exact ⟨dictInv_reset, h, hc.1, hc.2.2.1⟩

/-- C3: after any batch from reset, the dictionary's keys are exactly the
submitted strings in first-seen order, its indices are the consecutive
sequence `0, 1, 2, …` in insertion order (each new string got the
dictionary size before its insertion), the string count equals the
dictionary's size, and that size is the number of distinct strings
encoded since the last reset. -/
theorem dictionary_first_seen (ts : List Trace) (st : EncoderState)
    (h : encodeBatch resetState ts = some st) :
    st.stringMap.map Prod.fst = firstSeen [] (batchStrings ts) ∧
    st.stringMap.map Prod.snd = List.range st.stringMap.length ∧
    st.stringCount = st.stringMap.length ∧
    st.stringMap.length = (batchStrings ts).toFinset.card := by
  obtain ⟨hsnd, hcnt, hnd⟩ := dictInv_encodeBatch h
  have hk : keys st = firstSeen (keys resetState) (batchStrings ts) := keys_encodeBatch h
  have hk0 : keys resetState = [] := rfl
  rw [hk0] at hk
  refine ⟨hk, hsnd, hcnt, ?_⟩
  have h1 : st.stringMap.length = (keys st).length := by simp [keys]
  have h2 : (keys st).toFinset.card = (keys st).length := List.toFinset_card_of_nodup hnd
  have h3 : (keys st).toFinset = (batchStrings ts).toFinset := by
    rw [hk, firstSeen_toFinset]
    simp
  rw [h1, ← h2, h3]

theorem dictionary_first_seen_witness :
    wState.stringMap.map Prod.fst = firstSeen [] (batchStrings [[wSpan]]) ∧
    wState.stringMap.map Prod.snd = List.range wState.stringMap.length ∧
    wState.stringCount = wState.stringMap.length ∧
    wState.stringMap.length = (batchStrings [[wSpan]]).toFinset.card :=
  dictionary_first_seen [[wSpan]] wState wState_eq

/-- C5: interning a string already present changes nothing (`_cacheString`
is the identity on a hit); in particular when two `_encodeString` calls
for the same value are separated by arbitrarily many successfully encoded
traces of the same batch, the second call leaves the dictionary, the
string-byte region and the count unchanged, both calls write the same
index into the trace region, and the final dictionary holds exactly one
entry for that value. -/
theorem cross_trace_dedup (st st₁ st₂ st₃ : EncoderState) (v : String) (mid : List Trace)
    (hinv : DictInv st)
    (h₁ : encodeString st (some v) = some st₁)
    (hm : encodeBatch st₁ mid = some st₂)
    (h₂ : encodeString st₂ (some v) = some st₃) :
    cacheString st₂ v = st₂ ∧
    st₃.stringMap = st₂.stringMap ∧ st₃.stringBytes = st₂.stringBytes ∧
      st₃.stringCount = st₂.stringCount ∧
    (∃ i, st₁.traceBytes = st.traceBytes ++ intBytes (Int.ofNat i) ∧
      st₃.traceBytes = st₂.traceBytes ++ intBytes (Int.ofNat i) ∧
      st₃.stringMap.lookup v = some i) ∧
    List.count v (st₃.stringMap.map Prod.fst) = 1 := by
  obtain ⟨ht₁, hm₁, -, -⟩ := encodeString_fields h₁
  simp only [Option.getD_some] at ht₁ hm₁
  obtain ⟨hlook, -⟩ := internIdx_spec hinv v
  have hl₁ : st₁.stringMap.lookup v = some (internIdx st v) := by rw [hm₁]; exact hlook
  have hl₂ : st₂.stringMap.lookup v = some (internIdx st v) :=
    lookup_extend (stepRel_encodeBatch hm).1 hl₁
  have hcache : cacheString st₂ v = st₂ := cacheString_of_isSome (by rw [hl₂]; rfl)
  have hidx₂ : internIdx st₂ v = internIdx st v := by
    have hx : internIdx st₂ v = (st₂.stringMap.lookup v).getD 0 := by
      rw [internIdx, hcache]
    rw [hx, hl₂]
    rfl
  obtain ⟨ht₃, hm₃, hb₃, hc₃⟩ := encodeString_fields h₂
  simp only [Option.getD_some] at ht₃ hm₃ hb₃ hc₃
  rw [hcache] at hm₃ hb₃ hc₃
  rw [hidx₂] at ht₃
  have hl₃ : st₃.stringMap.lookup v = some (internIdx st v) := by rw [hm₃]; exact hl₂
  have hinv₃ : DictInv st₃ :=
    (stepRel_encodeString h₂).2.2.2 ((stepRel_encodeBatch hm).2.2.2
      ((stepRel_encodeString h₁).2.2.2 hinv))
  have hmem : v ∈ st₃.stringMap.map Prod.fst := by
    rw [← lookup_isSome_iff_mem, hl₃]
    rfl
  refine ⟨hcache, hm₃, hb₃, hc₃, ⟨internIdx st v, ht₁, ht₃, hl₃⟩, ?_⟩
  exact List.count_eq_one_of_mem hinv₃.2.2 hmem

theorem cross_trace_dedup_witness :
    cacheString wStr "web" = wStr ∧
    encodeString wStr (some "web") = some wStr2 ∧
    wStr2.stringMap = wStr.stringMap ∧
    (∃ i, wStr.traceBytes = resetState.traceBytes ++ intBytes (Int.ofNat i) ∧
      wStr2.traceBytes = wStr.traceBytes ++ intBytes (Int.ofNat i) ∧
      wStr2.stringMap.lookup "web" = some i) ∧
    List.count "web" (wStr2.stringMap.map Prod.fst) = 1 := by
  have h₁ : encodeString resetState (some "web") = some wStr := by decide
  have h₂ : encodeString wStr (some "web") = some wStr2 := by decide
  have hc := cross_trace_dedup resetState wStr wStr wStr2 "web" [] dictInv_reset h₁ rfl h₂
  exact ⟨hc.1, h₂, hc.2.1, hc.2.2.2.2.1, hc.2.2.2.2.2⟩

/-- C6: an absent string field encodes exactly like the empty string — it
is interned through `_cacheString` like any other value, receives the one
shared index of `""`, and any further absent field writes that same index
without touching the dictionary, the string-byte region or the count. -/
theorem empty_absent_intern (st st' : EncoderState) (hinv : DictInv st)
    (h : encodeString st none = some st') :
    encodeString st none = encodeString st (some "") ∧
    (∃ i, st'.stringMap.lookup "" = some i ∧ i < st'.stringCount ∧
      st'.traceBytes = st.traceBytes ++ intBytes (Int.ofNat i) ∧
      ∀ st'', encodeString st' none = some st'' →
        st''.traceBytes = st'.traceBytes ++ intBytes (Int.ofNat i) ∧
        st''.stringMap = st'.stringMap ∧ st''.stringBytes = st'.stringBytes ∧
        st''.stringCount = st'.stringCount) := by
  obtain ⟨ht, hm, -, hc⟩ := encodeString_fields h
  simp only [Option.getD_none] at ht hm hc
  obtain ⟨hlook, hlt⟩ := internIdx_spec hinv ""
  have hl : st'.stringMap.lookup "" = some (internIdx st "") := by rw [hm]; exact hlook
  refine ⟨rfl, internIdx st "", hl, by rw [hc]; exact hlt, ht, ?_⟩
  intro st'' h''
  have hcache : cacheString st' "" = st' := cacheString_of_isSome (by rw [hl]; rfl)
  have hidx : internIdx st' "" = internIdx st "" := by
    have hx : internIdx st' "" = (st'.stringMap.lookup "").getD 0 := by
      rw [internIdx, hcache]
    rw [hx, hl]
    rfl
  obtain ⟨ht'', hm'', hb'', hc''⟩ := encodeString_fields h''
  simp only [Option.getD_none] at ht'' hm'' hb'' hc''
  rw [hcache] at hm'' hb'' hc''
  rw [hidx] at ht''
  exact ⟨ht'', hm'', hb'', hc''⟩

theorem empty_absent_intern_witness :
    encodeString resetState none = some wEmpty ∧
    encodeString resetState none = encodeString resetState (some "") ∧
    (∃ i, wEmpty.stringMap.lookup "" = some i ∧ i < wEmpty.stringCount ∧
      wEmpty.traceBytes = resetState.traceBytes ++ intBytes (Int.ofNat i)) := by
  have h : encodeString resetState none = some wEmpty := by decide
  have hc := empty_absent_intern resetState wEmpty dictInv_reset h
  obtain ⟨h1, i, h2, h3, h4, -⟩ := hc
  exact ⟨h, h1, i, h2, h3, h4⟩

/-- A bind over `EncoderState` options is `none` whenever every
continuation value is. -/
theorem bind_chain_none {x : Option EncoderState} {f : EncoderState → Option EncoderState}
    (hf : ∀ a, f a = none) : x.bind f = none := by
  cases x with
  | none => rfl
  | some a => exact hf a

/-- C10: `_encode` substitutes 0 for absent (falsy) `start` and `duration`
before integer-encoding them, but passes `span.error` to the integer
encoder unchanged — a span with an absent `error` field is a contract
violation and the span encoding fails. -/
theorem error_not_defaulted (st : EncoderState) (s : Span) :
    (s.error = none → encodeSpan st s = none) ∧
    encodeSpan st s =
      encodeSpan st { s with start := some (s.start.getD 0), duration := some (s.duration.getD 0) } := by
  constructor
  · intro he
    simp only [encodeSpan]
    refine bind_chain_none fun s1 => bind_chain_none fun s2 => bind_chain_none fun s3 =>
      bind_chain_none fun s4 => bind_chain_none fun s5 => bind_chain_none fun s6 =>
      bind_chain_none fun s7 => bind_chain_none fun s8 => ?_
    rw [he]
    rfl
  · rfl

theorem error_not_defaulted_witness :
    encodeSpan resetState wNoErr = none ∧
    encodeSpan resetState wSpan =
      encodeSpan resetState { wSpan with start := some (wSpan.start.getD 0), duration := some (wSpan.duration.getD 0) } :=
  ⟨(error_not_defaulted resetState wNoErr).1 rfl, (error_not_defaulted resetState wSpan).2⟩

/-- C4: a successful span encoding appends to the trace region exactly the
`ARRAY_OF_TWELVE` tag byte `0x9c` followed by the twelve fields in order —
service, name, resource, trace_id, span_id, parent_id, start, duration,
error, meta, metrics, type — where the four string fields are written as
integer string-table indices (resolvable in the final dictionary), the
three identifiers are fixed-width 64-bit unsigned (`0xcf` plus eight
bytes, hence below `2^64`), and meta/metrics are the two map sections. -/
theorem span_twelve_fields (st st' : EncoderState) (s : Span) (hinv : DictInv st)
    (h : encodeSpan st s = some st') :
    ∃ (i₁ i₂ i₃ i₄ : Nat) (e : Int) (mb₁ mb₂ : List Nat),
      s.error = some e ∧
      s.trace_id < 18446744073709551616 ∧ s.span_id < 18446744073709551616 ∧
        s.parent_id < 18446744073709551616 ∧
      st'.traceBytes =
        st.traceBytes ++ [0x9c] ++ intBytes (Int.ofNat i₁) ++ intBytes (Int.ofNat i₂)
          ++ intBytes (Int.ofNat i₃) ++ (0xcf :: beBytes 8 s.trace_id)
          ++ (0xcf :: beBytes 8 s.span_id) ++ (0xcf :: beBytes 8 s.parent_id)
          ++ intBytes (s.start.getD 0) ++ intBytes (s.duration.getD 0) ++ intBytes e
          ++ mb₁ ++ mb₂ ++ intBytes (Int.ofNat i₄) ∧
      st'.stringMap.lookup (s.service.getD "") = some i₁ ∧
      st'.stringMap.lookup (s.name.getD "") = some i₂ ∧
      st'.stringMap.lookup (s.resource.getD "") = some i₃ ∧
      st'.stringMap.lookup (s.type.getD "") = some i₄ ∧
      (∃ stA stB stC, encodeMap stA (s.meta.getD []) = some stB ∧
        encodeMap stB (s.metrics.getD []) = some stC ∧
        stB.traceBytes = stA.traceBytes ++ mb₁ ∧ stC.traceBytes = stB.traceBytes ++ mb₂) := by
  simp only [encodeSpan, Option.bind_eq_some] at h
  obtain ⟨s1, h1, s2, h2, s3, h3, s4, h4, s5, h5, s6, h6, s7, h7, s8, h8, s9, h9,
    s10, h10, s11, h11, h12⟩ := h
  have hinv₀ : DictInv (pushTrace st [0x9c]) := hinv
  have hinv₁ : DictInv s1 := (stepRel_encodeString h1).2.2.2 hinv₀
  have hinv₂ : DictInv s2 := (stepRel_encodeString h2).2.2.2 hinv₁
  have hinv₁₁ : DictInv s11 :=
    (stepRel_encodeMap h11).2.2.2 <| (stepRel_encodeMap h10).2.2.2 <|
    (stepRel_encodeIntS h9).2.2.2 <| (stepRel_encodeIntS h8).2.2.2 <|
    (stepRel_encodeIntS h7).2.2.2 <| (stepRel_encodeIdS h6).2.2.2 <|
    (stepRel_encodeIdS h5).2.2.2 <| (stepRel_encodeIdS h4).2.2.2 <|
    (stepRel_encodeString h3).2.2.2 hinv₂
  obtain ⟨f1t, f1m, -, -⟩ := encodeString_fields h1
  obtain ⟨f2t, f2m, -, -⟩ := encodeString_fields h2
  obtain ⟨f3t, f3m, -, -⟩ := encodeString_fields h3
  obtain ⟨b4, he4⟩ := encodeIdS_eq h4
  obtain ⟨b5, he5⟩ := encodeIdS_eq h5
  obtain ⟨b6, he6⟩ := encodeIdS_eq h6
  obtain ⟨n7, hv7, -, -, he7⟩ := encodeIntS_eq h7
  obtain ⟨n8, hv8, -, -, he8⟩ := encodeIntS_eq h8
  obtain ⟨n9, hv9, -, -, he9⟩ := encodeIntS_eq h9
  obtain ⟨mb₁, hmb₁⟩ := (stepRel_encodeMap h10).2.2.1
  obtain ⟨mb₂, hmb₂⟩ := (stepRel_encodeMap h11).2.2.1
  obtain ⟨f12t, f12m, -, -⟩ := encodeString_fields h12
  have hn7 : n7 = s.start.getD 0 := (Option.some.inj hv7).symm
  have hn8 : n8 = s.duration.getD 0 := (Option.some.inj hv8).symm
  have t1 : s1.traceBytes =
      st.traceBytes ++ [0x9c]
        ++ intBytes (Int.ofNat (internIdx (pushTrace st [0x9c]) (s.service.getD ""))) := f1t
  have t4 : s4.traceBytes = s3.traceBytes ++ 0xcf :: beBytes 8 s.trace_id := by rw [he4]
  have t5 : s5.traceBytes = s4.traceBytes ++ 0xcf :: beBytes 8 s.span_id := by rw [he5]
  have t6 : s6.traceBytes = s5.traceBytes ++ 0xcf :: beBytes 8 s.parent_id := by rw [he6]
  have t7 : s7.traceBytes = s6.traceBytes ++ intBytes (s.start.getD 0) := by rw [he7, hn7]
  have t8 : s8.traceBytes = s7.traceBytes ++ intBytes (s.duration.getD 0) := by rw [he8, hn8]
  have t9 : s9.traceBytes = s8.traceBytes ++ intBytes n9 := by rw [he9]
  obtain ⟨l1, -⟩ := internIdx_spec hinv₀ (s.service.getD "")
  obtain ⟨l2, -⟩ := internIdx_spec hinv₁ (s.name.getD "")
  obtain ⟨l3, -⟩ := internIdx_spec hinv₂ (s.resource.getD "")
  obtain ⟨l12, -⟩ := internIdx_spec hinv₁₁ (s.type.getD "")
  have l1' : s1.stringMap.lookup (s.service.getD "") =
      some (internIdx (pushTrace st [0x9c]) (s.service.getD "")) := by rw [f1m]; exact l1
  have l2' : s2.stringMap.lookup (s.name.getD "") =
      some (internIdx s1 (s.name.getD "")) := by rw [f2m]; exact l2
  have l3' : s3.stringMap.lookup (s.resource.getD "") =
      some (internIdx s2 (s.resource.getD "")) := by rw [f3m]; exact l3
  have l12' : st'.stringMap.lookup (s.type.getD "") =
      some (internIdx s11 (s.type.getD "")) := by rw [f12m]; exact l12
  have pre1 : s1.stringMap <+: st'.stringMap :=
    (stepRel_encodeString h2).1.trans <| (stepRel_encodeString h3).1.trans <|
    (stepRel_encodeIdS h4).1.trans <| (stepRel_encodeIdS h5).1.trans <|
    (stepRel_encodeIdS h6).1.trans <| (stepRel_encodeIntS h7).1.trans <|
    (stepRel_encodeIntS h8).1.trans <| (stepRel_encodeIntS h9).1.trans <|
    (stepRel_encodeMap h10).1.trans <| (stepRel_encodeMap h11).1.trans
      (stepRel_encodeString h12).1
  have pre2 : s2.stringMap <+: st'.stringMap :=
    (stepRel_encodeString h3).1.trans <| (stepRel_encodeIdS h4).1.trans <|
    (stepRel_encodeIdS h5).1.trans <| (stepRel_encodeIdS h6).1.trans <|
    (stepRel_encodeIntS h7).1.trans <| (stepRel_encodeIntS h8).1.trans <|
    (stepRel_encodeIntS h9).1.trans <| (stepRel_encodeMap h10).1.trans <|
    (stepRel_encodeMap h11).1.trans (stepRel_encodeString h12).1
  have pre3 : s3.stringMap <+: st'.stringMap :=
    (stepRel_encodeIdS h4).1.trans <| (stepRel_encodeIdS h5).1.trans <|
    (stepRel_encodeIdS h6).1.trans <| (stepRel_encodeIntS h7).1.trans <|
    (stepRel_encodeIntS h8).1.trans <| (stepRel_encodeIntS h9).1.trans <|
    (stepRel_encodeMap h10).1.trans <| (stepRel_encodeMap h11).1.trans
      (stepRel_encodeString h12).1
  refine ⟨internIdx (pushTrace st [0x9c]) (s.service.getD ""), internIdx s1 (s.name.getD ""),
    internIdx s2 (s.resource.getD ""), internIdx s11 (s.type.getD ""), n9, mb₁, mb₂,
    hv9, b4, b5, b6, ?_, lookup_extend pre1 l1', lookup_extend pre2 l2',
    lookup_extend pre3 l3', l12', s9, s10, s11, h10, h11, hmb₁.symm, hmb₂.symm⟩
  rw [f12t, ← hmb₂, ← hmb₁, t9, t8, t7, t6, t5, t4, f3t, f2t, t1]

theorem span_twelve_fields_witness :
    DictInv resetState ∧
    (∃ stw, encodeSpan resetState wSpan = some stw ∧
      ∃ (i₁ i₂ i₃ i₄ : Nat) (e : Int) (mb₁ mb₂ : List Nat),
        wSpan.error = some e ∧
        stw.traceBytes =
          resetState.traceBytes ++ [0x9c] ++ intBytes (Int.ofNat i₁) ++ intBytes (Int.ofNat i₂)
            ++ intBytes (Int.ofNat i₃) ++ (0xcf :: beBytes 8 wSpan.trace_id)
            ++ (0xcf :: beBytes 8 wSpan.span_id) ++ (0xcf :: beBytes 8 wSpan.parent_id)
            ++ intBytes (wSpan.start.getD 0) ++ intBytes (wSpan.duration.getD 0) ++ intBytes e
            ++ mb₁ ++ mb₂ ++ intBytes (Int.ofNat i₄) ∧
        stw.stringMap.lookup (wSpan.service.getD "") = some i₁ ∧
        stw.stringMap.lookup (wSpan.type.getD "") = some i₄) := by
  have h : encodeSpan resetState wSpan =
      some { traceCount := 0
             traceBytes := [156, 0, 1, 2, 207, 0, 0, 0, 0, 0, 0, 0, 1,
               207, 0, 0, 0, 0, 0, 0, 0, 1, 207, 0, 0, 0, 0, 0, 0, 0, 0, 0, 5, 0, 128, 128, 2]
             stringCount := 3
             stringBytes := [163, 119, 101, 98, 166, 71, 69, 84, 32, 47, 97, 160]
             stringMap := [("web", 0), ("GET /a", 1), ("", 2)] } := by decide
  obtain ⟨i₁, i₂, i₃, i₄, e, mb₁, mb₂, c1, -, -, -, c5, c6, -, -, c9, -⟩ :=
    span_twelve_fields resetState _ wSpan dictInv_reset h
  exact ⟨dictInv_reset, _, h, i₁, i₂, i₃, i₄, e, mb₁, mb₂, c1, c5, c6, c9⟩
